import Mathlib

/-!
Verification development for the kksk danmaku peak-window analyser
(`src/kksk.py`).  The Python source is shallowly embedded below:

* `normalize_content`, `should_match` model the fuzzy keyword matcher
  (lines 7-27 of the source); Python's `re.sub(r'[？?]+', '?', ·)` is
  modelled by `collapseQM` and `re.match(r'^\?+$', ·)` by `matchQPlusB`
  (including the `$`-before-one-trailing-newline behaviour of Python
  regular expressions).  Python's `str.isalpha` / `str.lower` are
  modelled on the ASCII letter range by `pyIsAlphaStr` / `pyLower`.
* `record_entry` and `collect_records` model the per-record body of the
  extraction loop in `parse_timestamps` (lines 48-66): strip the text,
  match, split the `p` attribute on commas, require at least five
  fields, parse field 4 with Python `int` (modelled by `pyInt`), and
  skip the record on any failure.
* `find_peak_windows` models lines 72-119: a sliding-window scan
  (`emitAux`, with the while-loop for the left pointer as `moveLeft`
  run on fuel `ts.length`, which suffices because with a non-negative
  window the pointer never passes `right`), a stable sort by count
  descending (`sortByCountDesc`, an insertion sort, which agrees with
  Python's stable `list.sort(reverse=True, key=count)`), and the greedy
  non-overlap selection capped at ten windows (`selectWindows`).

Timestamps are Python integers and are modelled as `Int`.
-/

/-- Event models one element of the `times` list built by
`parse_timestamps`: a `(timestamp, filename, first_p)` tuple. -/
structure Event where
  timestamp : Int
  source : String
  first_p : String
deriving DecidableEq, Repr

instance : Inhabited Event := ⟨⟨0, "", ""⟩⟩

/-- Window models the dict appended to `windows` in `find_peak_windows`:
count, start/end timestamps, per-source counts (the `defaultdict(int)`
is modelled as an insertion-ordered association list) and the `p`-attribute
head of the first comment of the window. -/
structure Window where
  count : Nat
  start : Int
  end' : Int
  sources : List (String × Nat)
  first_video_time : String
deriving DecidableEq, Repr

/-- isQMChar holds for the full-width and half-width question marks,
the character class `[？?]` of the source. -/
def isQMChar (c : Char) : Bool := c == '？' || c == '?'

/-- collapseQMAux implements `re.sub(r'[？?]+', '?', s)` one character at
a time; the flag records whether the previous character was part of a
question-mark run (in which case further question marks are dropped). -/
def collapseQMAux : Bool → List Char → List Char
  | _, [] => []
  | prevQM, c :: cs =>
    if isQMChar c then
      (if prevQM then [] else ['?']) ++ collapseQMAux true cs
    else
      c :: collapseQMAux false cs

/-- collapseQM models `re.sub(r'[？?]+', '?', ·)`: every maximal run of
question marks (either width) becomes a single half-width `?`. -/
def collapseQM (l : List Char) : List Char := collapseQMAux false l

/-- normalize_content models lines 7-12 of the source: when the keyword
contains a question mark of either width, collapse question-mark runs in
the content; otherwise return the content unchanged. -/
def normalize_content (content keyword : String) : String :=
  if keyword.toList.any isQMChar then ⟨collapseQM content.toList⟩ else content

/-- pyIsAlphaStr is an executable instantiation of Python's
`str.isalpha` on the ASCII letter range, used only to evaluate concrete
examples; `should_match` below and every theorem about it are
parametric in the alphabetic test, so nothing proved depends on this
instantiation covering the full Unicode predicate. -/
def pyIsAlphaStr (s : String) : Bool := !s.toList.isEmpty && s.toList.all Char.isAlpha

/-- pyLower is an executable instantiation of Python's `str.lower` on
the ASCII range, used only to evaluate concrete examples; `should_match`
and its theorems are parametric in the lowercase map. -/
def pyLower (s : String) : String := ⟨s.toList.map Char.toLower⟩

/-- dropTrailingNewline removes one final newline if present; Python's
`$` anchor matches at the end of the string or just before one trailing
newline. -/
def dropTrailingNewline (l : List Char) : List Char :=
  match l.reverse with
  | '\n' :: rest => rest.reverse
  | _ => l

/-- matchQPlusB models `bool(re.match(r'^\?+$', s))`: after ignoring at
most one trailing newline, the string is one or more half-width `?`. -/
def matchQPlusB (s : String) : Bool :=
  let t := dropTrailingNewline s.toList
  !t.isEmpty && t.all (fun c => c == '?')

/-- should_match models lines 14-27 of the source, parametrically in
the two Unicode string primitives the branches use: `isalpha` stands
for Python's `str.isalpha` and `lower` for `str.lower` (the program's
behaviour is this function at CPython's primitives; `pyIsAlphaStr` and
`pyLower` are the executable ASCII instantiations used for concrete
examples).  The content is first normalized; then, if the keyword is
`？`/`?` or all its characters are question marks (true of the empty
keyword, since `set('') <= {'？','?'}`), the normalized content must
match `^\?+$`; an alphabetic keyword is compared case-insensitively;
otherwise the normalized content must equal the keyword exactly. -/
def should_match (isalpha : String → Bool) (lower : String → String)
    (content keyword : String) : Bool :=
  let processed_content := normalize_content content keyword
  if (keyword == "？" || keyword == "?") || keyword.toList.all isQMChar then
    matchQPlusB processed_content
  else if isalpha keyword then
    lower processed_content == lower keyword
  else
    processed_content == keyword

/-- digitsToNat reads a list of decimal digit characters as a number. -/
def digitsToNat (ds : List Char) : Nat := ds.foldl (fun n c => 10 * n + (c.toNat - 48)) 0

/-- pyStrip is an executable instantiation of Python's `str.strip()`
on the ASCII whitespace characters, used only in concrete examples and
in the structural linking equations; no claim theorem depends on it
covering all Unicode whitespace (the stripped text only feeds the match
test, which the C8 theorem treats as an opaque boolean). -/
def pyStrip (s : String) : String :=
  ⟨((s.toList.dropWhile Char.isWhitespace).reverse.dropWhile Char.isWhitespace).reverse⟩

/-- pySplitCommaAux splits a character list at commas, keeping empty
pieces, with the current piece accumulated in reverse. -/
def pySplitCommaAux : List Char → List Char → List String
  | acc, [] => [⟨acc.reverse⟩]
  | acc, c :: cs =>
    if c = ',' then ⟨acc.reverse⟩ :: pySplitCommaAux [] cs
    else pySplitCommaAux (c :: acc) cs

/-- pySplitComma models Python `s.split(',')`: split at every comma,
keeping empty pieces (the empty string splits to `[""]`). -/
def pySplitComma (s : String) : List String := pySplitCommaAux [] s.toList

/-- pyInt is an executable instantiation of Python's `int(s)` on plain
decimal literals: surrounding whitespace stripped, an optional sign,
then a nonempty run of ASCII digits; `none` models `ValueError`.  The
C8 theorem is parametric in the integer parser, so nothing proved
depends on this instantiation covering all of CPython's spellings
(underscore separators, non-ASCII digits or whitespace). -/
def pyInt (s : String) : Option Int :=
  match (pyStrip s).toList with
  | [] => none
  | '-' :: ds => if !ds.isEmpty && ds.all Char.isDigit then some (-(digitsToNat ds : Int)) else none
  | '+' :: ds => if !ds.isEmpty && ds.all Char.isDigit then some ((digitsToNat ds : Int)) else none
  | ds => if ds.all Char.isDigit then some ((digitsToNat ds : Int)) else none

/-- record_entry_core is the loop body of lines 52-66 after the match
test, parametrically in the outcome of the match test (`matched`) and
the integer parser (`intParse`, standing for Python's `int`; `pyInt` is
the executable instantiation): skip on a failed match, split the
attribute string at commas, require at least five fields, parse field 4
as the timestamp and keep field 0; `none` models every `continue`. -/
def record_entry_core (intParse : String → Option Int) (matched : Bool)
    (filename p_attr : String) : Option (Int × String × String) :=
  if !matched then none
  else
    let attrs := pySplitComma p_attr
    if attrs.length < 5 then none
    else
      match intParse (attrs.getD 4 "") with
      | some timestamp => some (timestamp, filename, attrs.getD 0 "")
      | none => none

/-- record_entry models the body of the per-element loop in
`parse_timestamps` (lines 48-66) for one `<d>` element with text `text`
and attribute string `p_attr` in file `filename`: strip the text,
normalize it, run the match test, then `record_entry_core` at the
executable instantiations. -/
def record_entry (keyword filename : String) (text : Option String) (p_attr : String) :
    Option (Int × String × String) :=
  record_entry_core pyInt
    (should_match pyIsAlphaStr pyLower
      (normalize_content (match text with | some t => pyStrip t | none => "") keyword)
      keyword)
    filename p_attr

/-- collect_records_core models the loop's accumulation parametrically
in the per-record entry function: produced entries are appended in
order, skipped records contribute nothing. -/
def collect_records_core (entry : Option String × String → Option (Int × String × String)) :
    List (Option String × String) → List (Int × String × String)
  | [] => []
  | r :: rest =>
    match entry r with
    | some e => e :: collect_records_core entry rest
    | none => collect_records_core entry rest

/-- collect_records is the accumulation loop at the concrete per-record
entry function. -/
def collect_records (keyword filename : String) (rs : List (Option String × String)) :
    List (Int × String × String) :=
  collect_records_core (fun r => record_entry keyword filename r.1 r.2) rs

/-- getT reads `times[i][0]`, the timestamp of the event at index `i`
(out-of-range reads, which the Python code never performs under a
non-negative window, give the default event). -/
def getT (ts : List Event) (i : Nat) : Int := (ts.getD i default).timestamp

/-- moveLeft models the while loop of lines 81-82: advance `left` while
`times[right][0] - times[left][0] > window_ms`.  The loop is run on fuel;
fuel `ts.length` is always sufficient because with `0 ≤ window_ms` the
condition fails once `left = right`. -/
def moveLeft (ts : List Event) (window_ms tR : Int) : Nat → Nat → Nat
  | 0, l => l
  | fuel + 1, l => if window_ms < tR - getT ts l then moveLeft ts window_ms tR fuel (l + 1) else l

/-- bumpSource models `source_files[name] += 1` on a `defaultdict(int)`
kept as an insertion-ordered association list. -/
def bumpSource (m : List (String × Nat)) (s : String) : List (String × Nat) :=
  match m with
  | [] => [(s, 1)]
  | (k, v) :: rest => if k == s then (k, v + 1) :: rest else (k, v) :: bumpSource rest s

/-- countSources models lines 88-90: count source files over the index
range `left..right` inclusive. -/
def countSources (ts : List Event) (l r : Nat) : List (String × Nat) :=
  (List.range (r + 1 - l)).foldl (fun m i => bumpSource m (ts.getD (l + i) default).source) []

/-- mkWindow builds the dict of lines 95-101 for pointer pair `(l, r)`. -/
def mkWindow (ts : List Event) (l r : Nat) : Window :=
  { count := r + 1 - l
    start := getT ts l
    end' := getT ts r
    sources := countSources ts l r
    first_video_time := (ts.getD l default).first_p }

/-- emitAux models the for-loop of lines 78-101: for each `right` from
`r` while `right < len(times)`, move the left pointer, and when the
count is positive append the window record.  The fuel argument drives
the structural recursion; fuel `ts.length` runs the loop to the end. -/
def emitAux (ts : List Event) (window_ms : Int) : Nat → Nat → Nat → List Window
  | 0, _, _ => []
  | fuel + 1, l, r =>
    if r < ts.length then
      let l' := moveLeft ts window_ms (getT ts r) ts.length l
      (if 0 < r + 1 - l' then [mkWindow ts l' r] else []) ++ emitAux ts window_ms fuel l' (r + 1)
    else []

/-- emitWindows is the `windows` list of `find_peak_windows` just before
the sort: the sliding-window scan over the whole input. -/
def emitWindows (times : List Event) (window_sec : Int) : List Window :=
  emitAux times (window_sec * 1000) times.length 0 0

/-- insertByCount inserts a window into a list sorted by count
descending, before the first element whose count does not exceed it;
together with `sortByCountDesc` this is the stable descending sort
`windows.sort(reverse=True, key=lambda x: x['count'])` of line 104. -/
def insertByCount (w : Window) : List Window → List Window
  | [] => [w]
  | x :: xs => if x.count ≤ w.count then w :: x :: xs else x :: insertByCount w xs

/-- sortByCountDesc models line 104: a stable sort by count descending
(insertion sort, which agrees with Python's stable `list.sort`). -/
def sortByCountDesc (ws : List Window) : List Window := ws.foldr insertByCount []

/-- overlapB is the strict open-interval overlap test of line 111:
`win['start'] < selected_win['end'] and win['end'] > selected_win['start']`. -/
def overlapB (w s : Window) : Bool := decide (w.start < s.end') && decide (s.start < w.end')

/-- selectWindows models the greedy selection loop of lines 106-117:
accept a candidate that overlaps no already-accepted window, and stop as
soon as ten windows are selected. -/
def selectWindows : List Window → List Window → List Window
  | [], selected => selected
  | w :: ws, selected =>
    if selected.any (overlapB w) then selectWindows ws selected
    else
      let selected' := selected ++ [w]
      if 10 ≤ selected'.length then selected' else selectWindows ws selected'

/-- find_peak_windows models lines 72-119: scan, stable sort by count
descending, then greedy non-overlap top-10 selection. -/
def find_peak_windows (times : List Event) (window_sec : Int) : List Window :=
  selectWindows (sortByCountDesc (emitWindows times window_sec)) []

/-- Emitted pairs a window of the scan with the pointer pair
`(left, right)` that defined it; the instrumented scan below emits these
records and projects to `emitWindows` under `Emitted.win`. -/
structure Emitted where
  left : Nat
  right : Nat
  win : Window
deriving DecidableEq, Repr

/-- emitAuxI is the scan of `emitAux` instrumented with the defining
pointer pair of every emitted window. -/
def emitAuxI (ts : List Event) (window_ms : Int) : Nat → Nat → Nat → List Emitted
  | 0, _, _ => []
  | fuel + 1, l, r =>
    if r < ts.length then
      let l' := moveLeft ts window_ms (getT ts r) ts.length l
      (if 0 < r + 1 - l' then [⟨l', r, mkWindow ts l' r⟩] else []) ++ emitAuxI ts window_ms fuel l' (r + 1)
    else []

/-- emitWindowsI is `emitWindows` instrumented with pointer pairs. -/
def emitWindowsI (times : List Event) (window_sec : Int) : List Emitted :=
  emitAuxI times (window_sec * 1000) times.length 0 0

/-- insertByCountI is `insertByCount` on instrumented windows; the
comparison reads only the window's count. -/
def insertByCountI (w : Emitted) : List Emitted → List Emitted
  | [] => [w]
  | x :: xs => if x.win.count ≤ w.win.count then w :: x :: xs else x :: insertByCountI w xs

/-- sortByCountDescI is the stable descending sort on instrumented
windows. -/
def sortByCountDescI (ws : List Emitted) : List Emitted := ws.foldr insertByCountI []

/-- selectWindowsI is the greedy selection on instrumented windows; the
overlap test reads only the window fields. -/
def selectWindowsI : List Emitted → List Emitted → List Emitted
  | [], selected => selected
  | w :: ws, selected =>
    if selected.any (fun s => overlapB w.win s.win) then selectWindowsI ws selected
    else
      let selected' := selected ++ [w]
      if 10 ≤ selected'.length then selected' else selectWindowsI ws selected'

/-- find_peak_windowsI is `find_peak_windows` instrumented with the
defining pointer pair of every window. -/
def find_peak_windowsI (times : List Event) (window_sec : Int) : List Emitted :=
  selectWindowsI (sortByCountDescI (emitWindowsI times window_sec)) []

/-- getT_st is `getT` in state-passing style: reading `times[i][0]`
returns the timestamp together with the (unchanged) list state. -/
def getT_st (st : List Event) (i : Nat) : Int × List Event :=
  ((st.getD i default).timestamp, st)

/-- moveLeft_st is `moveLeft` with the `times` list threaded as explicit
state through every read. -/
def moveLeft_st (window_ms tR : Int) : Nat → Nat → List Event → Nat × List Event
  | 0, l, st => (l, st)
  | fuel + 1, l, st =>
    let p := getT_st st l
    if window_ms < tR - p.1 then moveLeft_st window_ms tR fuel (l + 1) p.2 else (l, p.2)

/-- countSources_st is `countSources` with the `times` list threaded as
explicit state through every read. -/
def countSources_st (l r : Nat) (st : List Event) : List (String × Nat) × List Event :=
  ((List.range (r + 1 - l)).foldl
    (fun p i => (bumpSource p.1 (p.2.getD (l + i) default).source, p.2)) ([], st))

/-- mkWindow_st builds the window record in state-passing style. -/
def mkWindow_st (l r : Nat) (st : List Event) : Window × List Event :=
  let p₁ := getT_st st l
  let p₂ := getT_st p₁.2 r
  let p₃ := countSources_st l r p₂.2
  ({ count := r + 1 - l, start := p₁.1, end' := p₂.1, sources := p₃.1,
     first_video_time := (p₃.2.getD l default).first_p }, p₃.2)

/-- emitAux_st is the sliding-window scan with the `times` list threaded
as explicit state through every read. -/
def emitAux_st (window_ms : Int) : Nat → Nat → Nat → List Event → List Window × List Event
  | 0, _, _, st => ([], st)
  | fuel + 1, l, r, st =>
    if r < st.length then
      let pt := getT_st st r
      let pl := moveLeft_st window_ms pt.1 st.length l pt.2
      let pw := if 0 < r + 1 - pl.1 then
          let q := mkWindow_st pl.1 r pl.2
          ([q.1], q.2)
        else ([], pl.2)
      let pr := emitAux_st window_ms fuel pl.1 (r + 1) pw.2
      (pw.1 ++ pr.1, pr.2)
    else ([], st)

/-- find_peak_windows_st is `find_peak_windows` with the input list
threaded as explicit state: the pair of the returned selection and the
final state of the `times` list after the call. -/
def find_peak_windows_st (times : List Event) (window_sec : Int) : List Window × List Event :=
  let (ws, st) := emitAux_st (window_sec * 1000) times.length 0 0 times
  (selectWindows (sortByCountDesc ws) [], st)

/-- exC4 is the concrete scenario of the specification: events
`(0,"a")`, `(30000,"a")`, `(61000,"b")` analysed with a 60-second
window. -/
def exC4 : List Event := [⟨0, "a", ""⟩, ⟨30000, "a", ""⟩, ⟨61000, "b", ""⟩]

/-- exPair is a two-event input whose events lie within one window. -/
def exPair : List Event := [⟨0, "a", ""⟩, ⟨1000, "a", ""⟩]

/-- fuzzyMatchSpec is the specification-side statement of the corrected
fuzzy rule, parametric in the same alphabetic test and lowercase map as
`should_match`: a keyword all of whose characters are question marks
(including the empty keyword) accepts exactly the contents whose
conditional question-mark collapse matches `^\?+$`; an alphabetic
keyword compares case-insensitively; every other keyword compares for
exact equality after the same conditional collapse. -/
def fuzzyMatchSpec (isalpha : String → Bool) (lower : String → String)
    (content keyword : String) : Bool :=
  if keyword.toList.all isQMChar then
    matchQPlusB (normalize_content content keyword)
  else if isalpha keyword then
    lower content == lower keyword
  else
    normalize_content content keyword == keyword

/-- getT_mono reads monotonicity of timestamps off the sortedness
precondition of the finder. -/
theorem getT_mono (ts : List Event)
    (hs : List.Pairwise (fun a b : Event => a.timestamp ≤ b.timestamp) ts)
    (i j : Nat) (hij : i ≤ j) (hj : j < ts.length) : getT ts i ≤ getT ts j := by
  rcases Nat.eq_or_lt_of_le hij with rfl | hlt
  · exact le_refl _
  · have hi : i < ts.length := lt_trans hlt hj
    unfold getT
    rw [List.getD_eq_getElem _ _ hi, List.getD_eq_getElem _ _ hj]
    have h := List.pairwise_iff_get.mp hs ⟨i, hi⟩ ⟨j, hj⟩ hlt
    simpa using h

/-- moveLeft never moves the left pointer backwards. -/
theorem moveLeft_ge (ts : List Event) (wms tR : Int) :
    ∀ fuel l, l ≤ moveLeft ts wms tR fuel l := by
  intro fuel
  induction fuel with
  | zero => intro l; simp [moveLeft]
  | succ fuel ih =>
    intro l
    by_cases h : wms < tR - getT ts l
    · simp only [moveLeft, if_pos h]
      exact le_trans (Nat.le_succ l) (ih (l + 1))
    · simp [moveLeft, if_neg h]

/-- moveLeft returns its argument as soon as the loop condition fails. -/
theorem moveLeft_stop (ts : List Event) (wms tR : Int) (fuel l : Nat)
    (h : ¬ wms < tR - getT ts l) : moveLeft ts wms tR fuel l = l := by
  cases fuel with
  | zero => rfl
  | succ fuel => simp [moveLeft, if_neg h]

/-- moveLeft with a non-negative window never passes the right pointer,
and on return the window span fits the budget. -/
theorem moveLeft_spec (ts : List Event) (wms : Int) (hw : 0 ≤ wms) (r : Nat) :
    ∀ fuel l, l ≤ r → r - l ≤ fuel →
      moveLeft ts wms (getT ts r) fuel l ≤ r ∧
      getT ts r - getT ts (moveLeft ts wms (getT ts r) fuel l) ≤ wms := by
  intro fuel
  induction fuel with
  | zero =>
    intro l hlr hfuel
    have hlr' : l = r := by omega
    subst hlr'
    simp only [moveLeft]
    omega
  | succ fuel ih =>
    intro l hlr hfuel
    by_cases h : wms < getT ts r - getT ts l
    · have hlt : l < r := by
        rcases Nat.lt_or_ge l r with h' | h'
        · exact h'
        · have : l = r := by omega
          subst this
          omega
      simp only [moveLeft, if_pos h]
      exact ih (l + 1) (by omega) (by omega)
    · simp only [moveLeft, if_neg h]
      exact ⟨hlr, by omega⟩

/-- emitAuxI projects to emitAux under `Emitted.win`. -/
theorem emitAuxI_map_win (ts : List Event) (wms : Int) :
    ∀ fuel l r, (emitAuxI ts wms fuel l r).map Emitted.win = emitAux ts wms fuel l r := by
  intro fuel
  induction fuel with
  | zero => intro l r; rfl
  | succ fuel ih =>
    intro l r
    simp only [emitAuxI, emitAux]
    by_cases h : r < ts.length
    · rw [if_pos h, if_pos h]
      by_cases h2 : 0 < r + 1 - moveLeft ts wms (getT ts r) ts.length l
      · rw [if_pos h2, if_pos h2]
        simp [ih]
      · rw [if_neg h2, if_neg h2]
        simp [ih]
    · rw [if_neg h, if_neg h]
      rfl

/-- Every record of the instrumented scan started at a pointer pair with
`l ≤ left ≤ right < n`, carries the window built from its own pointer
pair, and (for a non-negative window budget) fits the budget. -/
theorem emitAuxI_mem_spec (ts : List Event) (wms : Int) (hw : 0 ≤ wms) :
    ∀ fuel l r, l ≤ r →
      ∀ e ∈ emitAuxI ts wms fuel l r,
        l ≤ e.left ∧ e.left ≤ e.right ∧ r ≤ e.right ∧ e.right < ts.length ∧
        e.win = mkWindow ts e.left e.right ∧
        getT ts e.right - getT ts e.left ≤ wms := by
  intro fuel
  induction fuel with
  | zero => intro l r _ e he; simp [emitAuxI] at he
  | succ fuel ih =>
    intro l r hlr e he
    simp only [emitAuxI] at he
    by_cases h : r < ts.length
    · rw [if_pos h] at he
      have hspec := moveLeft_spec ts wms hw r ts.length l hlr (by omega)
      have hge := moveLeft_ge ts wms (getT ts r) ts.length l
      rcases List.mem_append.mp he with he1 | he2
      · have hcount : 0 < r + 1 - moveLeft ts wms (getT ts r) ts.length l := by omega
        rw [if_pos hcount] at he1
        have he1' : e = ⟨moveLeft ts wms (getT ts r) ts.length l, r,
            mkWindow ts (moveLeft ts wms (getT ts r) ts.length l) r⟩ := by
          simpa using he1
        subst he1'
        exact ⟨hge, hspec.1, le_refl r, h, rfl, hspec.2⟩
      · have hrec := ih (moveLeft ts wms (getT ts r) ts.length l) (r + 1) (by omega) e he2
        exact ⟨le_trans hge hrec.1, hrec.2.1, by omega, hrec.2.2.2⟩
    · rw [if_neg h] at he
      simp at he

/-- With a non-negative window budget the instrumented scan emits one
record per right endpoint, from `r` up to the end of the list. -/
theorem emitAuxI_map_right (ts : List Event) (wms : Int) (hw : 0 ≤ wms) :
    ∀ fuel l r, l ≤ r → ts.length - r ≤ fuel →
      (emitAuxI ts wms fuel l r).map Emitted.right = List.range' r (ts.length - r) := by
  intro fuel
  induction fuel with
  | zero =>
    intro l r hlr hfuel
    have : ts.length - r = 0 := by omega
    rw [this]
    rfl
  | succ fuel ih =>
    intro l r hlr hfuel
    simp only [emitAuxI]
    by_cases h : r < ts.length
    · rw [if_pos h]
      have hspec := moveLeft_spec ts wms hw r ts.length l hlr (by omega)
      have hcount : 0 < r + 1 - moveLeft ts wms (getT ts r) ts.length l := by omega
      rw [if_pos hcount]
      have hrec := ih (moveLeft ts wms (getT ts r) ts.length l) (r + 1) (by omega) (by omega)
      have hlen : ts.length - r = (ts.length - (r + 1)) + 1 := by omega
      rw [hlen, List.range'_succ]
      simp [hrec]
    · rw [if_neg h]
      have : ts.length - r = 0 := by omega
      rw [this]
      rfl

/-- Every record of the instrumented scan has right endpoint at least
`r` (irrespective of the sign of the window budget). -/
theorem emitAuxI_right_lb (ts : List Event) (wms : Int) :
    ∀ fuel l r, ∀ e ∈ emitAuxI ts wms fuel l r, r ≤ e.right := by
  intro fuel
  induction fuel with
  | zero => intro l r e he; simp [emitAuxI] at he
  | succ fuel ih =>
    intro l r e he
    simp only [emitAuxI] at he
    by_cases h : r < ts.length
    · rw [if_pos h] at he
      rcases List.mem_append.mp he with he1 | he2
      · by_cases h2 : 0 < r + 1 - moveLeft ts wms (getT ts r) ts.length l
        · rw [if_pos h2] at he1
          have : e = ⟨moveLeft ts wms (getT ts r) ts.length l, r,
              mkWindow ts (moveLeft ts wms (getT ts r) ts.length l) r⟩ := by simpa using he1
          subst this
          exact le_refl r
        · rw [if_neg h2] at he1
          simp at he1
      · exact le_trans (Nat.le_succ r) (ih _ (r + 1) e he2)
    · rw [if_neg h] at he
      simp at he

/-- Right endpoints strictly increase along the instrumented scan. -/
theorem emitAuxI_right_pairwise (ts : List Event) (wms : Int) :
    ∀ fuel l r, List.Pairwise (fun a b : Emitted => a.right < b.right) (emitAuxI ts wms fuel l r) := by
  intro fuel
  induction fuel with
  | zero => intro l r; simp [emitAuxI]
  | succ fuel ih =>
    intro l r
    simp only [emitAuxI]
    by_cases h : r < ts.length
    · rw [if_pos h]
      by_cases h2 : 0 < r + 1 - moveLeft ts wms (getT ts r) ts.length l
      · rw [if_pos h2]
        simp only [List.singleton_append, List.pairwise_cons]
        constructor
        · intro e he
          have := emitAuxI_right_lb ts wms fuel (moveLeft ts wms (getT ts r) ts.length l) (r + 1) e he
          omega
        · exact ih _ (r + 1)
      · rw [if_neg h2]
        simpa using ih _ (r + 1)
    · rw [if_neg h]
      simp

/-- Every record of the instrumented scan has left pointer at least the
incoming left pointer. -/
theorem emitAuxI_left_lb_aux (ts : List Event) (wms : Int) :
    ∀ fuel l r, ∀ e ∈ emitAuxI ts wms fuel l r, l ≤ e.left := by
  intro fuel
  induction fuel with
  | zero => intro l r e he; simp [emitAuxI] at he
  | succ fuel ih =>
    intro l r e he
    simp only [emitAuxI] at he
    by_cases h : r < ts.length
    · rw [if_pos h] at he
      have hge := moveLeft_ge ts wms (getT ts r) ts.length l
      rcases List.mem_append.mp he with he1 | he2
      · by_cases h2 : 0 < r + 1 - moveLeft ts wms (getT ts r) ts.length l
        · rw [if_pos h2] at he1
          have : e = ⟨moveLeft ts wms (getT ts r) ts.length l, r,
              mkWindow ts (moveLeft ts wms (getT ts r) ts.length l) r⟩ := by simpa using he1
          subst this
          exact hge
        · rw [if_neg h2] at he1
          simp at he1
      · exact le_trans hge (ih _ (r + 1) e he2)
    · rw [if_neg h] at he
      simp at he
/-- Left pointers never decrease along the instrumented scan. -/
theorem emitAuxI_left_chain (ts : List Event) (wms : Int) :
    ∀ fuel l r, List.Chain' (fun a b : Emitted => a.left ≤ b.left) (emitAuxI ts wms fuel l r) := by
  intro fuel
  induction fuel with
  | zero => intro l r; simp [emitAuxI]
  | succ fuel ih =>
    intro l r
    simp only [emitAuxI]
    by_cases h : r < ts.length
    · rw [if_pos h]
      by_cases h2 : 0 < r + 1 - moveLeft ts wms (getT ts r) ts.length l
      · rw [if_pos h2]
        simp only [List.singleton_append]
        rw [List.chain'_cons']
        refine ⟨?_, ih _ (r + 1)⟩
        intro y hy
        have hmem : y ∈ emitAuxI ts wms fuel (moveLeft ts wms (getT ts r) ts.length l) (r + 1) :=
          List.mem_of_mem_head? hy
        exact emitAuxI_left_lb_aux ts wms fuel _ (r + 1) y hmem
      · rw [if_neg h2]
        simpa using ih _ (r + 1)
    · rw [if_neg h]
      simp

/-- stableBefore is the order the selection must satisfy per the spec:
count descending, with equal counts resolved by the scan's emission
order, i.e. by right endpoint. -/
def stableBefore (a b : Emitted) : Prop :=
  b.win.count ≤ a.win.count ∧ (a.win.count = b.win.count → a.right < b.right)

/-- noOverlapW is the negation of the strict open-interval overlap rule
of line 111 of the source. -/
def noOverlapW (a b : Window) : Prop := ¬ (a.start < b.end' ∧ b.start < a.end')

/-- Membership in an insertion is membership in the inserted element or
the original list. -/
theorem mem_insertByCountI (w : Emitted) :
    ∀ s x, x ∈ insertByCountI w s ↔ x = w ∨ x ∈ s := by
  intro s
  induction s with
  | nil => intro x; simp [insertByCountI]
  | cons a s ih =>
    intro x
    by_cases h : a.win.count ≤ w.win.count
    · simp [insertByCountI, if_pos h]
    · simp only [insertByCountI, if_neg h, List.mem_cons, ih]
      tauto

/-- Membership in the stable sort is membership in the input. -/
theorem mem_sortByCountDescI : ∀ (l : List Emitted) (x : Emitted),
    x ∈ sortByCountDescI l → x ∈ l := by
  intro l
  induction l with
  | nil => intro x hx; simp [sortByCountDescI] at hx
  | cons a l ih =>
    intro x hx
    have hx' : x ∈ insertByCountI a (sortByCountDescI l) := hx
    rcases (mem_insertByCountI a (sortByCountDescI l) x).mp hx' with h | h
    · simp [h]
    · simp [ih x h]

/-- Inserting an element whose right endpoint precedes every element of
an ordered list keeps the list ordered by `stableBefore`. -/
theorem insertByCountI_pairwise (w : Emitted) :
    ∀ s, s.Pairwise stableBefore → (∀ x ∈ s, w.right < x.right) →
      (insertByCountI w s).Pairwise stableBefore := by
  intro s
  induction s with
  | nil => intro _ _; simp [insertByCountI, stableBefore]
  | cons a s ih =>
    intro hp hr
    rcases List.pairwise_cons.mp hp with ⟨ha, hs⟩
    by_cases h : a.win.count ≤ w.win.count
    · simp only [insertByCountI, if_pos h, List.pairwise_cons]
      constructor
      · intro y hy
        rcases List.mem_cons.mp hy with rfl | hy'
        · exact ⟨h, fun _ => hr y (by simp)⟩
        · have hay := ha y hy'
          exact ⟨le_trans hay.1 h, fun _ => hr y (by simp [hy'])⟩
      · exact ⟨ha, hs⟩
    · simp only [insertByCountI, if_neg h, List.pairwise_cons]
      constructor
      · intro y hy
        rcases (mem_insertByCountI w s y).mp hy with rfl | hy'
        · exact ⟨le_of_lt (Nat.lt_of_not_le h), fun hc => absurd hc.symm (Nat.ne_of_lt (Nat.lt_of_not_le h))⟩
        · exact ha y hy'
      · exact ih hs (fun x hx => hr x (List.mem_cons_of_mem a hx))

/-- Stable sorting a list whose right endpoints strictly increase yields
a list ordered by `stableBefore`: count descending, with ties in
emission order. -/
theorem sortByCountDescI_pairwise :
    ∀ l : List Emitted, l.Pairwise (fun a b => a.right < b.right) →
      (sortByCountDescI l).Pairwise stableBefore := by
  intro l
  induction l with
  | nil => simp [sortByCountDescI]
  | cons a l ih =>
    intro hp
    rcases List.pairwise_cons.mp hp with ⟨ha, hl⟩
    have : sortByCountDescI (a :: l) = insertByCountI a (sortByCountDescI l) := rfl
    rw [this]
    exact insertByCountI_pairwise a (sortByCountDescI l) (ih hl)
      (fun x hx => ha x (mem_sortByCountDescI l x hx))

/-- Greedy selection preserves any pairwise ordering satisfied by the
candidate list, the accumulator, and all cross pairs. -/
theorem selectWindowsI_pairwise (R : Emitted → Emitted → Prop) :
    ∀ ws sel, ws.Pairwise R → sel.Pairwise R → (∀ a ∈ sel, ∀ b ∈ ws, R a b) →
      (selectWindowsI ws sel).Pairwise R := by
  intro ws
  induction ws with
  | nil => intro sel _ hsel _; exact hsel
  | cons w ws ih =>
    intro sel hws hsel hcross
    rcases List.pairwise_cons.mp hws with ⟨hw, hws'⟩
    simp only [selectWindowsI]
    by_cases h : sel.any (fun s => overlapB w.win s.win)
    · rw [if_pos h]
      exact ih sel hws' hsel (fun a ha b hb => hcross a ha b (List.mem_cons_of_mem w hb))
    · rw [if_neg h]
      have hsel' : (sel ++ [w]).Pairwise R := by
        rw [List.pairwise_append]
        exact ⟨hsel, List.pairwise_singleton R w,
          fun a ha b hb => by
            rcases List.mem_singleton.mp hb with rfl
            exact hcross a ha b (by simp)⟩
      by_cases hlen : 10 ≤ (sel ++ [w]).length
      · rw [if_pos hlen]
        exact hsel'
      · rw [if_neg hlen]
        refine ih (sel ++ [w]) hws' hsel' ?_
        intro a ha b hb
        rcases List.mem_append.mp ha with ha' | ha'
        · exact hcross a ha' b (List.mem_cons_of_mem w hb)
        · rcases List.mem_singleton.mp ha' with rfl
          exact hw b hb

/-- A false overlap test gives non-overlap in both orders. -/
theorem overlapB_false (w s : Window) (h : overlapB w s = false) :
    noOverlapW w s ∧ noOverlapW s w := by
  have h' : ¬ (w.start < s.end' ∧ s.start < w.end') := by
    intro hc
    unfold overlapB at h
    rw [decide_eq_true hc.1, decide_eq_true hc.2] at h
    simp at h
  exact ⟨h', fun hc => h' ⟨hc.2, hc.1⟩⟩

/-- Greedy selection keeps the accumulator pairwise non-overlapping. -/
theorem selectWindows_noOverlap :
    ∀ ws sel, sel.Pairwise noOverlapW → (selectWindows ws sel).Pairwise noOverlapW := by
  intro ws
  induction ws with
  | nil => intro sel hsel; exact hsel
  | cons w ws ih =>
    intro sel hsel
    simp only [selectWindows]
    by_cases h : sel.any (overlapB w)
    · rw [if_pos h]
      exact ih sel hsel
    · rw [if_neg h]
      have hfalse : ∀ s ∈ sel, overlapB w s = false := by
        intro s hs
        have h0 : sel.any (overlapB w) = false := by
          cases hx : sel.any (overlapB w)
          · rfl
          · exact absurd hx h
        have hne := List.any_eq_false.mp h0 s hs
        simpa using hne
      have hsel' : (sel ++ [w]).Pairwise noOverlapW := by
        rw [List.pairwise_append]
        refine ⟨hsel, List.pairwise_singleton _ w, ?_⟩
        intro a ha b hb
        rcases List.mem_singleton.mp hb with rfl
        exact (overlapB_false b a (hfalse a ha)).2
      by_cases hlen : 10 ≤ (sel ++ [w]).length
      · rw [if_pos hlen]
        exact hsel'
      · rw [if_neg hlen]
        exact ih (sel ++ [w]) hsel'

/-- Greedy selection extends its accumulator by candidates that pass
the overlap check against (at least) the incoming accumulator. -/
theorem selectWindows_extra :
    ∀ ws sel, ∃ extra, selectWindows ws sel = sel ++ extra ∧
      ∀ w ∈ extra, w ∈ ws ∧ ∀ s ∈ sel, overlapB w s = false := by
  intro ws
  induction ws with
  | nil =>
    intro sel
    exact ⟨[], by simp [selectWindows]⟩
  | cons w ws ih =>
    intro sel
    simp only [selectWindows]
    by_cases h : sel.any (overlapB w)
    · rw [if_pos h]
      rcases ih sel with ⟨extra, heq, hprop⟩
      exact ⟨extra, heq, fun x hx => ⟨List.mem_cons_of_mem w (hprop x hx).1, (hprop x hx).2⟩⟩
    · rw [if_neg h]
      have hfalse : ∀ s ∈ sel, overlapB w s = false := by
        intro s hs
        have h0 : sel.any (overlapB w) = false := by
          cases hx : sel.any (overlapB w)
          · rfl
          · exact absurd hx h
        have hne := List.any_eq_false.mp h0 s hs
        simpa using hne
      by_cases hlen : 10 ≤ (sel ++ [w]).length
      · rw [if_pos hlen]
        exact ⟨[w], rfl, fun x hx => by
          rcases List.mem_singleton.mp hx with rfl
          exact ⟨by simp, hfalse⟩⟩
      · rw [if_neg hlen]
        rcases ih (sel ++ [w]) with ⟨extra, heq, hprop⟩
        refine ⟨w :: extra, by simpa using heq, ?_⟩
        intro x hx
        rcases List.mem_cons.mp hx with rfl | hx'
        · exact ⟨by simp, hfalse⟩
        · exact ⟨List.mem_cons_of_mem w (hprop x hx').1,
            fun s hs => (hprop x hx').2 s (List.mem_append_left [w] hs)⟩

/-- If greedy selection returns its accumulator unchanged, every
candidate overlapped some accumulated window. -/
theorem selectWindows_stuck :
    ∀ ws sel, selectWindows ws sel = sel → ∀ w ∈ ws, sel.any (overlapB w) = true := by
  intro ws
  induction ws with
  | nil => intro sel _ w hw; simp at hw
  | cons w ws ih =>
    intro sel heq x hx
    simp only [selectWindows] at heq
    by_cases h : sel.any (overlapB w)
    · rw [if_pos h] at heq
      rcases List.mem_cons.mp hx with rfl | hx'
      · exact h
      · exact ih sel heq x hx'
    · rw [if_neg h] at heq
      exfalso
      by_cases hlen : 10 ≤ (sel ++ [w]).length
      · rw [if_pos hlen] at heq
        have := congrArg List.length heq
        simp at this
      · rw [if_neg hlen] at heq
        rcases selectWindows_extra ws (sel ++ [w]) with ⟨extra, heq', _⟩
        rw [heq'] at heq
        have := congrArg List.length heq
        simp at this

/-- Insertion on instrumented windows projects to insertion on windows. -/
theorem insertByCountI_map (w : Emitted) :
    ∀ s, (insertByCountI w s).map Emitted.win = insertByCount w.win (s.map Emitted.win) := by
  intro s
  induction s with
  | nil => rfl
  | cons x xs ih =>
    by_cases h : x.win.count ≤ w.win.count
    · simp [insertByCountI, insertByCount, if_pos h]
    · simp [insertByCountI, insertByCount, if_neg h, ih]

/-- The stable sort on instrumented windows projects to the stable sort
on windows. -/
theorem sortByCountDescI_map :
    ∀ l, (sortByCountDescI l).map Emitted.win = sortByCountDesc (l.map Emitted.win) := by
  intro l
  induction l with
  | nil => rfl
  | cons a l ih =>
    have h1 : sortByCountDescI (a :: l) = insertByCountI a (sortByCountDescI l) := rfl
    have h2 : sortByCountDesc (a.win :: l.map Emitted.win)
        = insertByCount a.win (sortByCountDesc (l.map Emitted.win)) := rfl
    rw [List.map_cons, h1, h2, insertByCountI_map, ih]

/-- The overlap scan over a projected accumulator agrees with the scan
over the instrumented accumulator. -/
theorem any_overlap_map (w : Window) :
    ∀ sel : List Emitted,
      (sel.map Emitted.win).any (overlapB w) = sel.any (fun s => overlapB w s.win) := by
  intro sel
  induction sel with
  | nil => rfl
  | cons a sel ih => simp [List.any_cons, ih]

/-- Greedy selection on instrumented windows projects to greedy
selection on windows. -/
theorem selectWindowsI_map :
    ∀ ws sel, (selectWindowsI ws sel).map Emitted.win
      = selectWindows (ws.map Emitted.win) (sel.map Emitted.win) := by
  intro ws
  induction ws with
  | nil => intro sel; rfl
  | cons w ws ih =>
    intro sel
    simp only [selectWindowsI, selectWindows, List.map_cons]
    rw [any_overlap_map]
    by_cases h : sel.any (fun s => overlapB w.win s.win)
    · rw [if_pos h, if_pos h]
      exact ih sel
    · rw [if_neg h, if_neg h]
      simp only [List.length_append, List.length_map, List.length_singleton]
      by_cases h2 : 10 ≤ sel.length + 1
      · rw [if_pos h2, if_pos h2]
        simp
      · rw [if_neg h2, if_neg h2]
        have := ih (sel ++ [w])
        simpa using this

/-- The instrumented pipeline projects to `find_peak_windows`. -/
theorem find_peak_windowsI_map (times : List Event) (window_sec : Int) :
    (find_peak_windowsI times window_sec).map Emitted.win = find_peak_windows times window_sec := by
  unfold find_peak_windowsI find_peak_windows emitWindows emitWindowsI
  have h := selectWindowsI_map (sortByCountDescI (emitAuxI times (window_sec * 1000) times.length 0 0)) []
  rw [h, sortByCountDescI_map, emitAuxI_map_win]
  rfl

/-- The state-threaded left-pointer loop returns the list state
unchanged and computes the same pointer. -/
theorem moveLeft_st_eq (wms tR : Int) :
    ∀ fuel l st, moveLeft_st wms tR fuel l st = (moveLeft st wms tR fuel l, st) := by
  intro fuel
  induction fuel with
  | zero => intro l st; rfl
  | succ fuel ih =>
    intro l st
    simp only [moveLeft_st, getT_st, moveLeft, getT]
    by_cases h : wms < tR - (st.getD l default).timestamp
    · rw [if_pos h, if_pos h]
      exact ih (l + 1) st
    · rw [if_neg h, if_neg h]

/-- Folding reads over the index range threads the list state through
unchanged. -/
theorem countSources_fold_eq (st : List Event) (l : Nat) :
    ∀ (idxs : List Nat) (acc : List (String × Nat)),
      idxs.foldl (fun p i => (bumpSource p.1 (p.2.getD (l + i) default).source, p.2)) (acc, st)
        = (idxs.foldl (fun m i => bumpSource m (st.getD (l + i) default).source) acc, st) := by
  intro idxs
  induction idxs with
  | nil => intro acc; rfl
  | cons i idxs ih => intro acc; simp only [List.foldl_cons]; exact ih _

/-- The state-threaded source counter returns the list state unchanged
and computes the same counts. -/
theorem countSources_st_eq (l r : Nat) (st : List Event) :
    countSources_st l r st = (countSources st l r, st) := by
  unfold countSources_st countSources
  exact countSources_fold_eq st l (List.range (r + 1 - l)) []

/-- The state-threaded window builder returns the list state unchanged
and builds the same window. -/
theorem mkWindow_st_eq (l r : Nat) (st : List Event) :
    mkWindow_st l r st = (mkWindow st l r, st) := by
  simp only [mkWindow_st, getT_st, countSources_st_eq, mkWindow, getT]

/-- The state-threaded scan returns the list state unchanged and emits
the same windows. -/
theorem emitAux_st_eq (wms : Int) :
    ∀ fuel l r st, emitAux_st wms fuel l r st = (emitAux st wms fuel l r, st) := by
  intro fuel
  induction fuel with
  | zero => intro l r st; rfl
  | succ fuel ih =>
    intro l r st
    simp only [emitAux_st, emitAux, getT_st, moveLeft_st_eq, mkWindow_st_eq, getT, ih]
    by_cases h : r < st.length
    · rw [if_pos h, if_pos h]
      by_cases h2 : 0 < r + 1 - moveLeft st wms ((st.getD r default).timestamp) st.length l
      · rw [if_pos h2, if_pos h2]
      · rw [if_neg h2, if_neg h2]
    · rw [if_neg h, if_neg h]

/-- The state-threaded finder returns the input list unchanged and the
same selection. -/
theorem find_peak_windows_st_eq (times : List Event) (window_sec : Int) :
    find_peak_windows_st times window_sec = (find_peak_windows times window_sec, times) := by
  unfold find_peak_windows_st find_peak_windows emitWindows
  rw [emitAux_st_eq]

/-- Inserting a window whose count is below every count of the list
appends it at the end. -/
theorem insertByCount_at_end :
    ∀ (s : List Window) (w : Window), (∀ x ∈ s, w.count < x.count) →
      insertByCount w s = s ++ [w] := by
  intro s
  induction s with
  | nil => intro w _; rfl
  | cons x xs ih =>
    intro w hw
    have hx : ¬ x.count ≤ w.count := by
      have := hw x (by simp)
      omega
    simp only [insertByCount, if_neg hx, List.cons_append]
    rw [ih w (fun y hy => hw y (by simp [hy]))]

/-- Stable descending sort of a list with strictly increasing counts is
reversal. -/
theorem sortByCountDesc_reverse :
    ∀ l : List Window, l.Pairwise (fun a b => a.count < b.count) →
      sortByCountDesc l = l.reverse := by
  intro l
  induction l with
  | nil => intro _; rfl
  | cons a l ih =>
    intro hp
    rcases List.pairwise_cons.mp hp with ⟨ha, hl⟩
    have h1 : sortByCountDesc (a :: l) = insertByCount a (sortByCountDesc l) := rfl
    rw [h1, ih hl, insertByCount_at_end]
    · simp
    · intro x hx
      exact ha x (List.mem_reverse.mp hx)

/-- When every event lies within the window budget of the first event,
the left pointer never moves and the scan emits, for each right
endpoint, the window anchored at index 0. -/
theorem emitAux_all_in (ts : List Event) (wms : Int)
    (hs : List.Pairwise (fun a b : Event => a.timestamp ≤ b.timestamp) ts)
    (hall : getT ts (ts.length - 1) - getT ts 0 ≤ wms) :
    ∀ fuel r, ts.length - r ≤ fuel →
      emitAux ts wms fuel 0 r = (List.range' r (ts.length - r)).map (mkWindow ts 0) := by
  intro fuel
  induction fuel with
  | zero =>
    intro r h
    have h0 : ts.length - r = 0 := by omega
    rw [h0]
    rfl
  | succ fuel ih =>
    intro r h
    simp only [emitAux]
    by_cases hr : r < ts.length
    · rw [if_pos hr]
      have hcond : ¬ (wms < getT ts r - getT ts 0) := by
        have h1 : getT ts r ≤ getT ts (ts.length - 1) :=
          getT_mono ts hs r (ts.length - 1) (by omega) (by omega)
        have h2 : getT ts 0 ≤ getT ts r := getT_mono ts hs 0 r (by omega) hr
        omega
      rw [moveLeft_stop ts wms (getT ts r) ts.length 0 hcond]
      have hguard : 0 < r + 1 - 0 := by omega
      rw [if_pos hguard]
      rw [ih (r + 1) (by omega)]
      have hlen : ts.length - r = (ts.length - (r + 1)) + 1 := by omega
      rw [hlen, List.range'_succ]
      simp
    · rw [if_neg hr]
      have h0 : ts.length - r = 0 := by omega
      rw [h0]
      rfl

/-- The explicit `keyword in` test of line 20 is subsumed by the
all-question-mark set test. -/
theorem qm_branch_iff (keyword : String) :
    ((keyword == "？" || keyword == "?") || keyword.toList.all isQMChar)
      = keyword.toList.all isQMChar := by
  by_cases h1 : keyword = "？"
  · subst h1; decide
  · by_cases h2 : keyword = "?"
    · subst h2; decide
    · have e1 : (keyword == "？") = false := beq_eq_false_iff_ne.mpr h1
      have e2 : (keyword == "?") = false := beq_eq_false_iff_ne.mpr h2
      rw [e1, e2]
      simp

/-- An alphabetic keyword contains no question mark of either width. -/
theorem pyIsAlphaStr_no_qm (keyword : String) (h : pyIsAlphaStr keyword = true) :
    keyword.toList.any isQMChar = false := by
  unfold pyIsAlphaStr at h
  rw [Bool.and_eq_true] at h
  have h2 := h.2
  rw [List.any_eq_false]
  intro c hc habs
  have hca := List.all_eq_true.mp h2 c hc
  have hqm : c = '？' ∨ c = '?' := by
    unfold isQMChar at habs
    rw [Bool.or_eq_true] at habs
    rcases habs with h' | h'
    · exact Or.inl (eq_of_beq h')
    · exact Or.inr (eq_of_beq h')
  rcases hqm with rfl | rfl
  · exact absurd hca (by decide)
  · exact absurd hca (by decide)

/-- Normalization is the identity when the keyword is alphabetic,
for any alphabetic test that never accepts a string containing a
question mark (true of Python's `str.isalpha`, since neither U+003F
nor U+FF1F is alphabetic). -/
theorem normalize_content_of_alpha (isalpha : String → Bool)
    (halpha : ∀ k : String, isalpha k = true → k.toList.any isQMChar = false)
    (content keyword : String) (h : isalpha keyword = true) :
    normalize_content content keyword = content := by
  unfold normalize_content
  rw [halpha keyword h]
  simp

/-- C9: for the empty input sequence and any window length,
`find_peak_windows` returns the empty selection; the computation is
total, so no error is raised. -/
theorem c9_empty_input_empty_selection (window_sec : Int) :
    find_peak_windows [] window_sec = [] := rfl

/-- C10: `find_peak_windows` only reads its input: threading the
`times` list as explicit state through every read returns it unchanged,
with the same selection as the pure function. -/
theorem c10_input_not_modified (times : List Event) (window_sec : Int) :
    (find_peak_windows_st times window_sec).2 = times ∧
    (find_peak_windows_st times window_sec).1 = find_peak_windows times window_sec := by
  rw [find_peak_windows_st_eq]
  exact ⟨rfl, rfl⟩

/-- C4 counterexample: on events `(0,"a"), (30000,"a"), (61000,"b")`
with a 60-second window the final selection has three windows, not two:
the degenerate count-1 window `[0,0]` passes the strict overlap test
against both accepted windows. -/
theorem c4_counterexample_three_windows :
    (find_peak_windows exC4 60).length = 3 ∧ (find_peak_windows exC4 60).length ≠ 2 := by
  decide

/-- C4 amended: counts per right endpoint are `[1,2,2]`, the selection
accepts the window `[0,30000]` of count 2 first, then the touching
window `[30000,61000]` of count 2, and finally also the degenerate
count-1 window `[0,0]` (whose end does not exceed the first window's
start), so the final selection has exactly three windows. -/
theorem c4_amended_scenario :
    (emitWindows exC4 60).map Window.count = [1, 2, 2] ∧
    find_peak_windows exC4 60 =
      [⟨2, 0, 30000, [("a", 2)], ""⟩,
       ⟨2, 30000, 61000, [("a", 1), ("b", 1)], ""⟩,
       ⟨1, 0, 0, [("a", 1)], ""⟩] := by
  decide

/-- C2: no two selected windows overlap under the strict open-interval
rule, over every input and window length; and touching windows can both
be selected, as the two count-2 windows of the concrete scenario show
(the first ends exactly where the second starts). -/
theorem c2_selection_no_overlap :
    (∀ times window_sec, (find_peak_windows times window_sec).Pairwise noOverlapW) ∧
    (∃ a b, (find_peak_windows exC4 60)[0]? = some a ∧
      (find_peak_windows exC4 60)[1]? = some b ∧ a.end' = b.start) := by
  constructor
  · intro times window_sec
    exact selectWindows_noOverlap _ [] List.Pairwise.nil
  · refine ⟨⟨2, 0, 30000, [("a", 2)], ""⟩, ⟨2, 30000, 61000, [("a", 1), ("b", 1)], ""⟩, ?_, ?_, rfl⟩
    · decide
    · decide

/-- C7 counterexample: the keyword `ab?` is neither alphabetic (under
any correct model: `?` is not an alphabetic character) nor all question
marks, so per the claim it should match only contents exactly equal to
it; but the code collapses question-mark runs in the content first, and
accepts `ab??`.  All characters involved are ASCII, where the
executable instantiations coincide with Python's primitives. -/
theorem c7_counterexample_fuzzy_not_exact :
    should_match pyIsAlphaStr pyLower "ab??" "ab?" = true ∧
    pyIsAlphaStr "ab?" = false ∧
    "ab?".toList.all isQMChar = false ∧
    "ab??" ≠ "ab?" := by
  decide

/-- C7 amended: for every alphabetic test and lowercase map (in
particular CPython's `str.isalpha` and `str.lower`, assuming only that
the alphabetic test never accepts a string containing a question mark —
true of Unicode), `should_match` agrees everywhere with the corrected
rule `fuzzyMatchSpec`: all-question-mark keywords (including the empty
keyword) accept the contents whose conditional question-mark collapse
matches `^\?+$`; alphabetic keywords compare case-insensitively under
the given lowercase map; all other keywords compare for exact equality
after the same conditional collapse of the content. -/
theorem c7_amended_match_rule (isalpha : String → Bool) (lower : String → String)
    (halpha : ∀ k : String, isalpha k = true → k.toList.any isQMChar = false)
    (content keyword : String) :
    should_match isalpha lower content keyword = fuzzyMatchSpec isalpha lower content keyword := by
  unfold should_match fuzzyMatchSpec
  rw [qm_branch_iff]
  by_cases hqm : keyword.toList.all isQMChar
  · rw [hqm]
    rfl
  · have hqm' : keyword.toList.all isQMChar = false := by
      cases hx : keyword.toList.all isQMChar
      · rfl
      · exact absurd hx hqm
    rw [hqm']
    by_cases ha : isalpha keyword
    · rw [ha, normalize_content_of_alpha isalpha halpha content keyword ha]
    · have ha' : isalpha keyword = false := by
        cases hx : isalpha keyword
        · rfl
        · exact absurd hx ha
      rw [ha']
      rfl

/-- Witness for the amended C7 at the executable ASCII instantiation
(whose alphabetic test provably never accepts a question mark) and a
concrete content/keyword pair. -/
theorem c7_amended_match_rule_witness :
    (∀ k : String, pyIsAlphaStr k = true → k.toList.any isQMChar = false) ∧
    should_match pyIsAlphaStr pyLower "KKSK" "kksk"
      = fuzzyMatchSpec pyIsAlphaStr pyLower "KKSK" "kksk" :=
  ⟨pyIsAlphaStr_no_qm,
   c7_amended_match_rule pyIsAlphaStr pyLower pyIsAlphaStr_no_qm "KKSK" "kksk"⟩

/-- C5 counterexample: two events 1000 ms apart, both within a
60-second window: the selection has two windows (the count-2 window
plus the degenerate count-1 window at the first event), not exactly
one. -/
theorem c5_counterexample_two_windows :
    exPair.length = 2 ∧
    getT exPair (exPair.length - 1) - getT exPair 0 ≤ 60 * 1000 ∧
    (find_peak_windows exPair 60).length = 2 ∧
    (find_peak_windows exPair 60).length ≠ 1 := by
  decide

/-- C1: every window emitted by the scan spans at most
`window_sec*1000` milliseconds, has `end ≥ start`, and its count is
`right - left + 1` for the pointer pair that defined it, i.e. the
number of events of the contiguous index range `[left, right]`; the
instrumented scan projects onto the actual emitted list. -/
theorem c1_emitted_window_invariants (times : List Event) (window_sec : Int)
    (hs : List.Pairwise (fun a b : Event => a.timestamp ≤ b.timestamp) times)
    (hw : 0 < window_sec) :
    ((emitWindowsI times window_sec).map Emitted.win = emitWindows times window_sec) ∧
    ∀ e ∈ emitWindowsI times window_sec,
      e.win.end' - e.win.start ≤ window_sec * 1000 ∧
      e.win.start ≤ e.win.end' ∧
      e.left ≤ e.right ∧
      e.win.count = e.right - e.left + 1 ∧
      e.win.start = getT times e.left ∧
      e.win.end' = getT times e.right := by
  have hwms : (0 : Int) ≤ window_sec * 1000 := by omega
  constructor
  · exact emitAuxI_map_win times (window_sec * 1000) times.length 0 0
  · intro e he
    obtain ⟨h1, h2, h3, h4, h5, h6⟩ :=
      emitAuxI_mem_spec times (window_sec * 1000) hwms times.length 0 0 (le_refl 0) e he
    have hstart : e.win.start = getT times e.left := by rw [h5]; rfl
    have hend : e.win.end' = getT times e.right := by rw [h5]; rfl
    have hcount : e.win.count = e.right - e.left + 1 := by
      rw [h5]
      simp only [mkWindow]
      omega
    refine ⟨?_, ?_, h2, hcount, hstart, hend⟩
    · rw [hstart, hend]
      exact h6
    · rw [hstart, hend]
      exact getT_mono times hs e.left e.right h2 h4

/-- Witness for C1 at a concrete sorted input and positive window. -/
theorem c1_emitted_window_invariants_witness :
    List.Pairwise (fun a b : Event => a.timestamp ≤ b.timestamp) exPair ∧ ((0 : Int) < 60) ∧
    (((emitWindowsI exPair 60).map Emitted.win = emitWindows exPair 60) ∧
      ∀ e ∈ emitWindowsI exPair 60,
        e.win.end' - e.win.start ≤ 60 * 1000 ∧
        e.win.start ≤ e.win.end' ∧
        e.left ≤ e.right ∧
        e.win.count = e.right - e.left + 1 ∧
        e.win.start = getT exPair e.left ∧
        e.win.end' = getT exPair e.right) :=
  ⟨by decide, by decide, c1_emitted_window_invariants exPair 60 (by decide) (by decide)⟩

/-- C6: with a positive window the scan emits exactly one window per
right endpoint (the right endpoints of the instrumented scan are
`0, 1, ..., n-1` and the emitted list has length `n`), every emitted
window has count at least 1, the left pointer never decreases along the
scan, and it never exceeds the right pointer, which stays in bounds. -/
theorem c6_one_window_per_right_endpoint (times : List Event) (window_sec : Int)
    (hw : 0 < window_sec) :
    ((emitWindowsI times window_sec).map Emitted.win = emitWindows times window_sec) ∧
    ((emitWindowsI times window_sec).map Emitted.right = List.range times.length) ∧
    (emitWindows times window_sec).length = times.length ∧
    (∀ w ∈ emitWindows times window_sec, 1 ≤ w.count) ∧
    List.Chain' (fun a b : Emitted => a.left ≤ b.left) (emitWindowsI times window_sec) ∧
    (∀ e ∈ emitWindowsI times window_sec, e.left ≤ e.right ∧ e.right < times.length) := by
  have hwms : (0 : Int) ≤ window_sec * 1000 := by omega
  have hproj : (emitWindowsI times window_sec).map Emitted.win = emitWindows times window_sec :=
    emitAuxI_map_win times (window_sec * 1000) times.length 0 0
  have hrights := emitAuxI_map_right times (window_sec * 1000) hwms times.length 0 0
    (le_refl 0) (by omega)
  have hrights' : (emitWindowsI times window_sec).map Emitted.right = List.range times.length := by
    rw [List.range_eq_range']
    simpa using hrights
  refine ⟨hproj, hrights', ?_, ?_,
    emitAuxI_left_chain times (window_sec * 1000) times.length 0 0, ?_⟩
  · have h1 := congrArg List.length hproj
    rw [List.length_map] at h1
    have h2 := congrArg List.length hrights'
    rw [List.length_map, List.length_range] at h2
    omega
  · intro w hw'
    rw [← hproj] at hw'
    obtain ⟨e, he, rfl⟩ := List.mem_map.mp hw'
    obtain ⟨_, h2, _, _, h5, _⟩ :=
      emitAuxI_mem_spec times (window_sec * 1000) hwms times.length 0 0 (le_refl 0) e he
    rw [h5]
    simp only [mkWindow]
    omega
  · intro e he
    obtain ⟨_, h2, _, h4, _, _⟩ :=
      emitAuxI_mem_spec times (window_sec * 1000) hwms times.length 0 0 (le_refl 0) e he
    exact ⟨h2, h4⟩

/-- Witness for C6 at a concrete input and positive window. -/
theorem c6_one_window_per_right_endpoint_witness :
    ((0 : Int) < 60) ∧
    (((emitWindowsI exPair 60).map Emitted.win = emitWindows exPair 60) ∧
      ((emitWindowsI exPair 60).map Emitted.right = List.range exPair.length) ∧
      (emitWindows exPair 60).length = exPair.length ∧
      (∀ w ∈ emitWindows exPair 60, 1 ≤ w.count) ∧
      List.Chain' (fun a b : Emitted => a.left ≤ b.left) (emitWindowsI exPair 60) ∧
      (∀ e ∈ emitWindowsI exPair 60, e.left ≤ e.right ∧ e.right < exPair.length)) :=
  ⟨by decide, c6_one_window_per_right_endpoint exPair 60 (by decide)⟩

/-- C3: the selection is ordered by count descending, and two selected
windows with equal count keep the scan's emission order (smaller right
endpoint first): the instrumented selection satisfies `stableBefore`
pairwise and projects onto the actual selection, which is therefore
sorted by count descending. -/
theorem c3_selection_sorted_stable (times : List Event) (window_sec : Int) :
    ((find_peak_windowsI times window_sec).map Emitted.win = find_peak_windows times window_sec) ∧
    (find_peak_windowsI times window_sec).Pairwise stableBefore ∧
    (find_peak_windows times window_sec).Pairwise (fun a b => b.count ≤ a.count) := by
  have hproj := find_peak_windowsI_map times window_sec
  have hstable : (find_peak_windowsI times window_sec).Pairwise stableBefore := by
    unfold find_peak_windowsI
    apply selectWindowsI_pairwise stableBefore
    · exact sortByCountDescI_pairwise _
        (emitAuxI_right_pairwise times (window_sec * 1000) times.length 0 0)
    · exact List.Pairwise.nil
    · intro a ha
      exact absurd ha (List.not_mem_nil a)
  refine ⟨hproj, hstable, ?_⟩
  rw [← hproj]
  exact List.Pairwise.map Emitted.win (fun a b hab => hab.1) hstable

/-- C5 amended: when all events lie within the window budget of each
other, the selection's first window is the full window of count `n`
spanning from the first to the last timestamp; but the selection is not
a singleton: every further selected window is degenerate (its start and
end both equal the first timestamp), and for `n ≥ 2` at least one such
degenerate window (the scan's first emission) is always accepted,
because its end does not strictly exceed the top window's start. -/
theorem c5_amended_all_events_within_window (times : List Event) (window_sec : Int)
    (hs : List.Pairwise (fun a b : Event => a.timestamp ≤ b.timestamp) times)
    (hne : times ≠ [])
    (_hw : 0 < window_sec)
    (hall : getT times (times.length - 1) - getT times 0 ≤ window_sec * 1000) :
    ∃ rest, find_peak_windows times window_sec
        = mkWindow times 0 (times.length - 1) :: rest ∧
      (mkWindow times 0 (times.length - 1)).count = times.length ∧
      (mkWindow times 0 (times.length - 1)).start = getT times 0 ∧
      (mkWindow times 0 (times.length - 1)).end' = getT times (times.length - 1) ∧
      (∀ w ∈ rest, w.start = getT times 0 ∧ w.end' = getT times 0) ∧
      (2 ≤ times.length → rest ≠ []) := by
  obtain ⟨m, hm⟩ : ∃ m, times.length = m + 1 := by
    cases hlen : times.length with
    | zero => exact absurd (List.length_eq_zero.mp hlen) hne
    | succ m => exact ⟨m, rfl⟩
  have hm1 : times.length - 1 = m := by omega
  have hemit : emitWindows times window_sec
      = (List.range times.length).map (mkWindow times 0) := by
    unfold emitWindows
    rw [emitAux_all_in times (window_sec * 1000) hs hall times.length 0 (by omega)]
    rw [List.range_eq_range']
    simp
  have hcounts : ((List.range times.length).map (mkWindow times 0)).Pairwise
      (fun a b : Window => a.count < b.count) := by
    rw [List.pairwise_map]
    have hr : (List.range times.length).Pairwise (· < ·) := List.pairwise_lt_range times.length
    exact List.Pairwise.imp (fun hab => by simp only [mkWindow]; omega) hr
  have hsort : sortByCountDesc (emitWindows times window_sec)
      = ((List.range times.length).map (mkWindow times 0)).reverse := by
    rw [hemit]
    exact sortByCountDesc_reverse _ hcounts
  have hdecomp : ((List.range times.length).map (mkWindow times 0)).reverse
      = mkWindow times 0 m :: ((List.range m).map (mkWindow times 0)).reverse := by
    rw [hm, List.range_succ, List.map_append, List.reverse_append]
    simp
  have hfind : find_peak_windows times window_sec
      = selectWindows (((List.range m).map (mkWindow times 0)).reverse) [mkWindow times 0 m] := by
    unfold find_peak_windows
    rw [hsort, hdecomp]
    simp [selectWindows]
  obtain ⟨extra, heq, hprop⟩ :=
    selectWindows_extra (((List.range m).map (mkWindow times 0)).reverse) [mkWindow times 0 m]
  refine ⟨extra, ?_, ?_, ?_, ?_, ?_, ?_⟩
  · rw [hfind, heq, hm1]
    rfl
  · simp only [mkWindow]
    omega
  · rfl
  · rfl
  · intro w hwmem
    obtain ⟨hw1, hw2⟩ := hprop w hwmem
    have hw1' : w ∈ (List.range m).map (mkWindow times 0) := List.mem_reverse.mp hw1
    obtain ⟨j, hj, rfl⟩ := List.mem_map.mp hw1'
    have hjm : j < m := List.mem_range.mp hj
    have hov := hw2 (mkWindow times 0 m) (by simp)
    have hnov : ¬ (getT times 0 < getT times m ∧ getT times 0 < getT times j) :=
      (overlapB_false _ _ hov).1
    have hmono1 : getT times 0 ≤ getT times j := getT_mono times hs 0 j (by omega) (by omega)
    have hmono2 : getT times j ≤ getT times m := getT_mono times hs j m (by omega) (by omega)
    constructor
    · rfl
    · show getT times j = getT times 0
      by_cases hlt : getT times 0 < getT times m
      · have hnlt : ¬ getT times 0 < getT times j := fun hc => hnov ⟨hlt, hc⟩
        omega
      · omega
  · intro h2 hext
    have heq' : selectWindows (((List.range m).map (mkWindow times 0)).reverse)
        [mkWindow times 0 m] = [mkWindow times 0 m] := by
      rw [heq, hext]
      simp
    have hmem0 : mkWindow times 0 0 ∈ ((List.range m).map (mkWindow times 0)).reverse :=
      List.mem_reverse.mpr (List.mem_map.mpr ⟨0, List.mem_range.mpr (by omega), rfl⟩)
    have hstuck := selectWindows_stuck _ _ heq' (mkWindow times 0 0) hmem0
    have hov : overlapB (mkWindow times 0 0) (mkWindow times 0 m) = true := by
      simpa using hstuck
    unfold overlapB at hov
    rw [Bool.and_eq_true] at hov
    have hlt : (mkWindow times 0 m).start < (mkWindow times 0 0).end' :=
      of_decide_eq_true hov.2
    exact lt_irrefl (getT times 0) hlt

/-- Witness for the amended C5 at a concrete two-event input. -/
theorem c5_amended_witness :
    List.Pairwise (fun a b : Event => a.timestamp ≤ b.timestamp) exPair ∧
    exPair ≠ [] ∧ ((0 : Int) < 60) ∧
    getT exPair (exPair.length - 1) - getT exPair 0 ≤ 60 * 1000 ∧
    (∃ rest, find_peak_windows exPair 60 = mkWindow exPair 0 (exPair.length - 1) :: rest ∧
      (mkWindow exPair 0 (exPair.length - 1)).count = exPair.length ∧
      (mkWindow exPair 0 (exPair.length - 1)).start = getT exPair 0 ∧
      (mkWindow exPair 0 (exPair.length - 1)).end' = getT exPair (exPair.length - 1) ∧
      (∀ w ∈ rest, w.start = getT exPair 0 ∧ w.end' = getT exPair 0) ∧
      (2 ≤ exPair.length → rest ≠ [])) :=
  ⟨by decide, by decide, by decide, by decide,
    c5_amended_all_events_within_window exPair 60 (by decide) (by decide) (by decide) (by decide)⟩

/-- C8: parametrically in the integer parser (standing for CPython's
`int`) and in the outcome of the match test, the loop body takes the
timestamp of a produced entry from the comma-separated field at
0-indexed position 4 of the `p` attribute (and the video time from
field 0); a record with fewer than five fields or whose fifth field the
parser rejects yields no entry; a skipped record contributes nothing to
the collected list (no sentinel and no null entry); and the concrete
`record_entry` and `collect_records` are exactly this core at the
executable instantiations. -/
theorem c8_timestamp_field_and_skip (intParse : String → Option Int) (matched : Bool)
    (filename p_attr : String) :
    (((pySplitComma p_attr).length < 5 ∨ intParse ((pySplitComma p_attr).getD 4 "") = none) →
      record_entry_core intParse matched filename p_attr = none) ∧
    (∀ e, record_entry_core intParse matched filename p_attr = some e →
      5 ≤ (pySplitComma p_attr).length ∧
      intParse ((pySplitComma p_attr).getD 4 "") = some e.1 ∧
      e.2.1 = filename ∧
      e.2.2 = (pySplitComma p_attr).getD 0 "") ∧
    (∀ (entry : Option String × String → Option (Int × String × String))
       (r : Option String × String) (rest : List (Option String × String)),
      entry r = none →
        collect_records_core entry (r :: rest) = collect_records_core entry rest) ∧
    (∀ (entry : Option String × String → Option (Int × String × String))
       (r : Option String × String) (rest : List (Option String × String))
       (e : Int × String × String),
      entry r = some e →
        collect_records_core entry (r :: rest) = e :: collect_records_core entry rest) ∧
    (∀ (keyword : String) (text : Option String),
      record_entry keyword filename text p_attr
        = record_entry_core pyInt
            (should_match pyIsAlphaStr pyLower
              (normalize_content (match text with | some t => pyStrip t | none => "") keyword)
              keyword)
            filename p_attr) ∧
    (∀ (keyword : String) (rs : List (Option String × String)),
      collect_records keyword filename rs
        = collect_records_core (fun r => record_entry keyword filename r.1 r.2) rs) := by
  refine ⟨?_, ?_, ?_, ?_, ?_, ?_⟩
  · intro h
    cases matched with
    | false => rfl
    | true =>
      simp only [record_entry_core]
      have hred : ∀ (x y : Option (Int × String × String)), (if (!true) = true then x else y) = y :=
        fun x y => rfl
      rw [hred]
      rcases h with h1 | h1
      · rw [if_pos h1]
      · by_cases hlen : (pySplitComma p_attr).length < 5
        · rw [if_pos hlen]
        · rw [if_neg hlen, h1]
  · intro e he
    cases matched with
    | false => exact absurd he (by simp [record_entry_core])
    | true =>
      simp only [record_entry_core] at he
      have hred : ∀ (x y : Option (Int × String × String)), (if (!true) = true then x else y) = y :=
        fun x y => rfl
      rw [hred] at he
      by_cases hlen : (pySplitComma p_attr).length < 5
      · rw [if_pos hlen] at he
        exact absurd he (by simp)
      · rw [if_neg hlen] at he
        cases hpy : intParse ((pySplitComma p_attr).getD 4 "") with
        | none =>
          rw [hpy] at he
          exact absurd he (by simp)
        | some t =>
          rw [hpy] at he
          have ht := Option.some.inj he
          subst ht
          exact ⟨by omega, rfl, rfl, rfl⟩
  · intro entry r rest h
    simp only [collect_records_core, h]
  · intro entry r rest e he
    simp only [collect_records_core, he]
  · intro keyword text
    cases text with
    | none => rfl
    | some t => rfl
  · intro keyword rs
    rfl

/-- Witness for C8: concrete instantiation at the executable integer
parser, with a record whose attribute string has three fields (skipped
by the length test, contributing nothing). -/
theorem c8_timestamp_field_and_skip_witness :
    ((pySplitComma "1,2,3").length < 5 ∨ pyInt ((pySplitComma "1,2,3").getD 4 "") = none) ∧
    record_entry_core pyInt true "f.xml" "1,2,3" = none ∧
    collect_records_core (fun r => record_entry "kksk" "f.xml" r.1 r.2)
        [(some "kksk", "1,2,3")]
      = collect_records_core (fun r => record_entry "kksk" "f.xml" r.1 r.2) [] :=
  ⟨Or.inl (by decide),
   (c8_timestamp_field_and_skip pyInt true "f.xml" "1,2,3").1 (Or.inl (by decide)),
   (c8_timestamp_field_and_skip pyInt true "f.xml" "1,2,3").2.2.1
     (fun r => record_entry "kksk" "f.xml" r.1 r.2) (some "kksk", "1,2,3") [] (by decide)⟩
